import Mathlib

/-!
# Verification of the execution-trace instrumenter (`record.py`)

A shallow embedding of `record.py`: the text normalizer (`find_indent_level`,
`strip_indent`), the AST-rewriting instrumentation engine
(`_fill_body_with_record` and its helper constructors), and an operational
semantics for the Python fragment the engine handles (assignments, returns,
`if`/`while`/`for` with `orelse` blocks), tracking the process-wide record
store (trace buffer and dump counter) written by the injected runtime calls.

Source text is modelled as `List Char`; Python's `str.split('\n')` /
`'\n'.join` as `splitLines` / `joinLines`; local scopes as insertion-ordered
association lists, matching Python dict semantics for the closed fragment.
-/

namespace PyTrace

/-! ## Text normalizer (`find_indent_level`, `strip_indent`) -/

/-- Python's `string.whitespace`: space, tab, linefeed, return, vertical
tab, formfeed. -/
def isWs (c : Char) : Bool :=
  c == ' ' || c == '\t' || c == '\n' || c == '\r' ||
    c == Char.ofNat 11 || c == Char.ofNat 12

/-- `find_indent_level(source)`: index of the first character that is not
whitespace; `len(source)` when every character is whitespace (the
`for`/`enumerate` loop in the source runs over the whole string, not over a
single line). -/
def find_indent_level : List Char → Nat
  | [] => 0
  | c :: rest => if isWs c then find_indent_level rest + 1 else 0

/-- Python's `source.split('\n')`: `""` splits to `[""]`, a trailing newline
yields a trailing empty line. -/
def splitLines : List Char → List (List Char)
  | [] => [[]]
  | c :: rest =>
    if c = '\n' then [] :: splitLines rest
    else
      match splitLines rest with
      | [] => [[c]]
      | l :: ls => (c :: l) :: ls

/-- Python's `'\n'.join(lines)`. -/
def joinLines : List (List Char) → List Char
  | [] => []
  | [l] => l
  | l :: ls => l ++ '\n' :: joinLines ls

/-- `strip_indent(source)`: drop the indent level from every line and
rejoin.  `line[indent_level:]` is Python slicing, which is total: a line
shorter than the indent level slices to `''` (the `except IndexError`
branch in the source is unreachable, slicing never raises). -/
def strip_indent (source : List Char) : List Char :=
  joinLines ((splitLines source).map
    (fun line => line.drop (find_indent_level source)))

/-! ## The AST fragment handled by the instrumentation engine

The engine's precondition (one function whose body draws from plain
statements, conditionals with optional alternative, and loops).  Each node
carries the `lineno` the parser assigned.  The only call-expression
statements that occur are the two injected runtime calls, modelled by
`CallE`: `_record_state_fn_hidden_123(lineno, locals())` and
`_dump_state_fn_hidden_123()`. -/

/-- The two injected runtime calls (`ast.Expr(ast.Call(...))` nodes built by
`_make_record_state_call_expr` / `_make_dump_state_call_expr`). -/
inductive CallE where
  | recordState (lineno : Nat)
  | dumpState
  deriving DecidableEq, Repr

/-- Expressions of the fragment (enough for the sources' test programs:
constants, variables, `+`, `<`, `==`). -/
inductive Expr where
  | const (n : Int)
  | var (x : String)
  | add (a b : Expr)
  | lt (a b : Expr)
  | eqE (a b : Expr)
  deriving DecidableEq, Repr

/-- Statements of the fragment.  `ifS`, `whileS` and `forS` carry both a
`body` and an `orelse` block, as the corresponding `ast` nodes do (Python's
`while`/`for` have an `else` clause that runs on normal exit); `forS`
iterates its target over `range(count)`. -/
inductive Stmt where
  | assign (lineno : Nat) (target : String) (value : Expr)
  | ret (lineno : Nat) (value : Expr)
  | ifS (lineno : Nat) (test : Expr) (body orelse : List Stmt)
  | whileS (lineno : Nat) (test : Expr) (body orelse : List Stmt)
  | forS (lineno : Nat) (target : String) (count : Expr) (body orelse : List Stmt)
  | exprStmt (lineno : Nat) (value : CallE)

/-- The `lineno` attribute of a statement node. -/
def Stmt.lineno : Stmt → Nat
  | .assign l _ _ => l
  | .ret l _ => l
  | .ifS l _ _ _ => l
  | .whileS l _ _ _ => l
  | .forS l _ _ _ _ => l
  | .exprStmt l _ => l

/-! ## The instrumentation engine (`_fill_body_with_record` and helpers) -/

/-- `RETVAL_NAME = '_retval_hidden_123'`. -/
def RETVAL_NAME : String := "_retval_hidden_123"

/-- `_make_record_state_call_expr(lineno)`: the statement
`_record_state_fn_hidden_123(lineno, locals())` — the `ast.Expr` node itself
is built with `lineno=0`. -/
def _make_record_state_call_expr (lineno : Nat) : Stmt :=
  .exprStmt 0 (.recordState lineno)

/-- `_make_dump_state_call_expr()`: the statement
`_dump_state_fn_hidden_123()`, built with `lineno=0`. -/
def _make_dump_state_call_expr : Stmt :=
  .exprStmt 0 .dumpState

/-- `_make_return_trace_call_exprs(item)` for `item = Return(lineno, value)`:
assign the return value to `RETVAL_NAME`, record state at the return's
`lineno`, dump, then return `RETVAL_NAME` (the `Assign` and `Return` nodes
are built with `lineno=0`). -/
def _make_return_trace_call_exprs (lineno : Nat) (value : Expr) : List Stmt :=
  [ .assign 0 RETVAL_NAME value,
    _make_record_state_call_expr lineno,
    _make_dump_state_call_expr,
    .ret 0 (.var RETVAL_NAME) ]

mutual

/-- One turn of the body loop of `_fill_body_with_record`: the statements
contributed to `new_body` for one original statement.  A `Return` is
replaced by `_make_return_trace_call_exprs`; a statement with nested
`body`/`orelse` attributes has each nested block recursively filled with
`prepend=True` at the item's own `lineno` and gets no appended call
(`has_nested`); any other statement gets a record call appended right
after it at its own `lineno`. -/
def fillChunk : Stmt → List Stmt
  | .ret l e => _make_return_trace_call_exprs l e
  | .ifS l t b o =>
      [.ifS l t (_make_record_state_call_expr l :: fillItems b)
        (_make_record_state_call_expr l :: fillItems o)]
  | .whileS l t b o =>
      [.whileS l t (_make_record_state_call_expr l :: fillItems b)
        (_make_record_state_call_expr l :: fillItems o)]
  | .forS l x c b o =>
      [.forS l x c (_make_record_state_call_expr l :: fillItems b)
        (_make_record_state_call_expr l :: fillItems o)]
  | .assign l x e => [.assign l x e, _make_record_state_call_expr l]
  | .exprStmt l c => [.exprStmt l c, _make_record_state_call_expr l]

/-- The body loop of `_fill_body_with_record` with `prepend=False`,
concatenating the per-item contributions in source order. -/
def fillItems : List Stmt → List Stmt
  | [] => []
  | st :: rest => fillChunk st ++ fillItems rest

end

/-- `_fill_body_with_record(original_body, prepend, lineno)`: when `prepend`
is set (always with a `lineno`, per the source's assertion — modelled as an
`Option Nat`), one record call at that `lineno` is inserted first. -/
def _fill_body_with_record (original_body : List Stmt)
    (prepend : Option Nat := none) : List Stmt :=
  match prepend with
  | some l => _make_record_state_call_expr l :: fillItems original_body
  | none => fillItems original_body

/-! ## Operational semantics of the fragment

Locals are an insertion-ordered association list (Python dict semantics for
string keys); the process-wide record store is the `trace` field (the
`'data'` list appended by `_record_state_fn_hidden_123`) together with a
count of `_dump_state_fn_hidden_123` invocations.  Execution is a fueled
interpreter: `none` means fuel ran out or a runtime error (unbound name)
occurred. -/

/-- Update `x` to `v`, keeping insertion order; append when absent. -/
def setVar : List (String × Int) → String → Int → List (String × Int)
  | [], x, v => [(x, v)]
  | (y, w) :: rest, x, v =>
      if y = x then (y, v) :: rest else (y, w) :: setVar rest x v

/-- Expression evaluation over the locals; comparisons yield `1`/`0` as
Python booleans coerce. -/
def eval : Expr → List (String × Int) → Option Int
  | .const n, _ => some n
  | .var x, env => env.lookup x
  | .add a b, env =>
      match eval a env, eval b env with
      | some x, some y => some (x + y)
      | _, _ => none
  | .lt a b, env =>
      match eval a env, eval b env with
      | some x, some y => some (if x < y then 1 else 0)
      | _, _ => none
  | .eqE a b, env =>
      match eval a env, eval b env with
      | some x, some y => some (if x = y then 1 else 0)
      | _, _ => none

/-- Python truthiness of an integer. -/
def truthy (v : Int) : Bool := v != 0

/-- How a block finished: fell through normally, or a `return v` fired. -/
inductive Res where
  | norm
  | retv (v : Int)
  deriving DecidableEq, Repr

/-- Interpreter state: the locals of the executing call, plus the
process-wide record store (`trace` entries are `(lineno, deepcopy(locals))`
pairs; `dumps` counts flush invocations). -/
structure St where
  locals : List (String × Int)
  trace : List (Nat × List (String × Int))
  dumps : Nat
  deriving DecidableEq, Repr

/-- `_record_state_fn_hidden_123(l, locals())`: append `(l, snapshot)`.
Values are immutable integers here, so the deep copy is the value itself. -/
def recordState (l : Nat) (s : St) : St :=
  { s with trace := s.trace ++ [(l, s.locals)] }

mutual

/-- Execute one statement. -/
def execStmt : Nat → Stmt → St → Option (St × Res)
  | 0, _, _ => none
  | Nat.succ _, .exprStmt _ (.recordState l), s =>
      some (recordState l s, .norm)
  | Nat.succ _, .exprStmt _ .dumpState, s =>
      some ({ s with dumps := s.dumps + 1 }, .norm)
  | Nat.succ _, .assign _ x e, s =>
      match eval e s.locals with
      | none => none
      | some v => some ({ s with locals := setVar s.locals x v }, .norm)
  | Nat.succ _, .ret _ e, s =>
      match eval e s.locals with
      | none => none
      | some v => some (s, .retv v)
  | Nat.succ f, .ifS _ t b o, s =>
      match eval t s.locals with
      | none => none
      | some c => if truthy c then execStmts f b s else execStmts f o s
  | Nat.succ f, .whileS l t b o, s =>
      match eval t s.locals with
      | none => none
      | some c =>
        if truthy c then
          match execStmts f b s with
          | none => none
          | some (s', .norm) => execStmt f (.whileS l t b o) s'
          | some (s', .retv v) => some (s', .retv v)
        else execStmts f o s
  | Nat.succ f, .forS _ x cnt b o, s =>
      match eval cnt s.locals with
      | none => none
      | some n => execFor f x 0 n b o s

/-- Execute a block in sequence; a `return` short-circuits. -/
def execStmts : Nat → List Stmt → St → Option (St × Res)
  | 0, _, _ => none
  | Nat.succ _, [], s => some (s, .norm)
  | Nat.succ f, st :: rest, s =>
      match execStmt f st s with
      | none => none
      | some (s', .norm) => execStmts f rest s'
      | some (s', .retv v) => some (s', .retv v)

/-- Iterate `for x in range(n)` from index `i`: while `i < n`, bind the
target and run the body; on exhaustion run the `orelse` block (Python's
`for`-`else`). -/
def execFor : Nat → String → Int → Int → List Stmt → List Stmt → St →
    Option (St × Res)
  | 0, _, _, _, _, _, _ => none
  | Nat.succ f, x, i, n, b, o, s =>
      if i < n then
        match execStmts f b { s with locals := setVar s.locals x i } with
        | none => none
        | some (s', .norm) => execFor f x (i + 1) n b o s'
        | some (s', .retv v) => some (s', .retv v)
      else execStmts f o s

end

/-! ## Fuel-insensitive execution relations

`ExecStmtR st s r` (and block / `for` variants): the interpreter, given
enough fuel, runs `st` from `s` to outcome `r`.  By `execStmt_mono` these
are the fuel-independent behaviours of the code. -/

def ExecStmtR (st : Stmt) (s : St) (r : St × Res) : Prop :=
  ∃ f, execStmt f st s = some r

def ExecStmtsR (l : List Stmt) (s : St) (r : St × Res) : Prop :=
  ∃ f, execStmts f l s = some r

def ExecForR (x : String) (i n : Int) (b o : List Stmt) (s : St)
    (r : St × Res) : Prop :=
  ∃ f, execFor f x i n b o s = some r

/-! ## Structural predicates and helpers on statement trees -/

/-- A plain assignment statement. -/
def isAssign : Stmt → Bool
  | .assign _ _ _ => true
  | _ => false

mutual

/-- `clean`: an original (pre-instrumentation) statement tree, containing
none of the injected runtime-call statements anywhere. -/
def cleanStmt : Stmt → Bool
  | .exprStmt _ _ => false
  | .ifS _ _ b o => cleanBlock b && cleanBlock o
  | .whileS _ _ b o => cleanBlock b && cleanBlock o
  | .forS _ _ _ b o => cleanBlock b && cleanBlock o
  | _ => true

/-- All statements of a block are clean. -/
def cleanBlock : List Stmt → Bool
  | [] => true
  | st :: rest => cleanStmt st && cleanBlock rest

end

mutual

/-- No `return` statement anywhere in the tree. -/
def noRetStmt : Stmt → Bool
  | .ret _ _ => false
  | .ifS _ _ b o => noRetBlock b && noRetBlock o
  | .whileS _ _ b o => noRetBlock b && noRetBlock o
  | .forS _ _ _ b o => noRetBlock b && noRetBlock o
  | _ => true

/-- No `return` statement anywhere in a block. -/
def noRetBlock : List Stmt → Bool
  | [] => true
  | st :: rest => noRetStmt st && noRetBlock rest

end

mutual

/-- What one statement erases to: injected runtime-call statements vanish,
nested blocks are erased recursively, everything else is kept as is. -/
def eraseChunk : Stmt → List Stmt
  | .exprStmt _ _ => []
  | .ifS l t b o => [.ifS l t (eraseBlock b) (eraseBlock o)]
  | .whileS l t b o => [.whileS l t (eraseBlock b) (eraseBlock o)]
  | .forS l x c b o => [.forS l x c (eraseBlock b) (eraseBlock o)]
  | st => [st]

/-- Remove every injected runtime-call statement, recursively, keeping all
other statements in place and in order. -/
def eraseBlock : List Stmt → List Stmt
  | [] => []
  | st :: rest => eraseChunk st ++ eraseBlock rest

end

/-! ## Concrete programs from the repository's tests

Line numbers are those `inspect.getsource` assigns: the `@record` line is
line 1, the `def` line is line 2, the first body statement line 3. -/

/-- `test_simple`: `x = 5; y = 6`. -/
def progSimple : List Stmt :=
  [ .assign 3 "x" (.const 5),
    .assign 4 "y" (.const 6) ]

/-- `test_while`: `x = 3; y = 6; while x < y: x += 1` (the `while` is on
line 6 after a blank line). -/
def progWhile : List Stmt :=
  [ .assign 3 "x" (.const 3),
    .assign 4 "y" (.const 6),
    .whileS 6 (.lt (.var "x") (.var "y"))
      [.assign 7 "x" (.add (.var "x") (.const 1))] [] ]

/-- `test_for`: `x = 3; s = 0; for i in range(x): s = s + i`. -/
def progFor : List Stmt :=
  [ .assign 3 "x" (.const 3),
    .assign 4 "s" (.const 0),
    .forS 5 "i" (.var "x")
      [.assign 6 "s" (.add (.var "s") (.var "i"))] [] ]

/-- The state at function entry for a zero-argument call: no locals, fresh
record store. -/
def initSt : St := { locals := [], trace := [], dumps := 0 }

/-! ## Simulation: the instrumented body refines the original

`simPost t s' r t'`: how the instrumented run's final state `t'` relates to
the original run's final state `s'`, relative to the instrumented start
state `t` — the trace only grew, and on a normal finish locals agree and no
dump happened, while on a return path the locals additionally hold the
`RETVAL_NAME` temporary and exactly one dump happened. -/
def simPost (t s' : St) (r : Res) (t' : St) : Prop :=
  (∃ d, t'.trace = t.trace ++ d) ∧
    (r = Res.norm → t'.locals = s'.locals ∧ t'.dumps = t.dumps) ∧
    (∀ v, r = Res.retv v →
      t'.locals = setVar s'.locals RETVAL_NAME v ∧ t'.dumps = t.dumps + 1)

theorem splitLines_ne_nil (s : List Char) : splitLines s ≠ [] := by
  cases s with
  | nil => simp [splitLines]
  | cons c rest =>
    simp only [splitLines]
    split
    · simp
    · cases h : splitLines rest <;> simp

theorem joinLines_splitLines (s : List Char) :
    joinLines (splitLines s) = s := by
  induction s with
  | nil => rfl
  | cons c rest ih =>
    by_cases hc : c = '\n'
    · subst hc
      simp only [splitLines, if_pos rfl]
      cases h : splitLines rest with
      | nil => exact absurd h (splitLines_ne_nil rest)
      | cons m ms =>
        rw [h] at ih
        simp [joinLines, ih]
    · simp only [splitLines, if_neg hc]
      cases h : splitLines rest with
      | nil => exact absurd h (splitLines_ne_nil rest)
      | cons m ms =>
        rw [h] at ih
        cases ms with
        | nil => simpa [joinLines] using ih
        | cons m2 ms2 => simpa [joinLines] using ih

theorem find_indent_level_cons_not_ws (c : Char) (rest : List Char)
    (h : isWs c = false) : find_indent_level (c :: rest) = 0 := by
  simp [find_indent_level, h]

/-- C7 helper: characterisation of `find_indent_level` as the index of the
first non-whitespace character of the whole source (`List.findIdx` returns
the length when no character qualifies, exactly as the source returns
`len(source)` after the loop). -/
theorem find_indent_level_eq_findIdx (s : List Char) :
    find_indent_level s = s.findIdx (fun c => !isWs c) := by
  induction s with
  | nil => rfl
  | cons c rest ih =>
    by_cases h : isWs c
    · simp [find_indent_level, h, List.findIdx_cons, ih]
    · simp [find_indent_level, h, List.findIdx_cons]

/-! ## Fuel monotonicity -/

theorem execMonoSucc : ∀ f,
    (∀ st s r, execStmt f st s = some r → execStmt (f + 1) st s = some r) ∧
    (∀ l s r, execStmts f l s = some r → execStmts (f + 1) l s = some r) ∧
    (∀ x i n b o s r, execFor f x i n b o s = some r →
      execFor (f + 1) x i n b o s = some r) := by
  intro f
  induction f with
  | zero =>
    refine ⟨?_, ?_, ?_⟩ <;> intros <;> simp_all [execStmt, execStmts, execFor]
  | succ f ih =>
    obtain ⟨ih1, ih2, ih3⟩ := ih
    refine ⟨?_, ?_, ?_⟩
    · intro st s r h
      cases st with
      | assign l x e => simpa [execStmt] using h
      | ret l e => simpa [execStmt] using h
      | exprStmt l c => cases c <;> simpa [execStmt] using h
      | ifS l t b o =>
        cases he : eval t s.locals with
        | none => simp [execStmt, he] at h
        | some c =>
          simp only [execStmt, he] at h ⊢
          by_cases hc : truthy c
          · simp only [hc, if_pos] at h ⊢; exact ih2 _ _ _ h
          · simp only [hc, Bool.false_eq_true, if_false] at h ⊢
            exact ih2 _ _ _ h
      | whileS l t b o =>
        cases he : eval t s.locals with
        | none => simp [execStmt, he] at h
        | some c =>
          simp only [execStmt, he] at h ⊢
          by_cases hc : truthy c
          · simp only [hc, if_pos] at h ⊢
            cases hb : execStmts f b s with
            | none => rw [hb] at h; simp at h
            | some p =>
              obtain ⟨s1, r1⟩ := p
              rw [hb] at h
              rw [ih2 _ _ _ hb]
              cases r1 with
              | norm => exact ih1 _ _ _ h
              | retv v => exact h
          · simp only [hc, Bool.false_eq_true, if_false] at h ⊢
            exact ih2 _ _ _ h
      | forS l x cnt b o =>
        cases he : eval cnt s.locals with
        | none => simp [execStmt, he] at h
        | some n =>
          simp only [execStmt, he] at h ⊢
          exact ih3 _ _ _ _ _ _ _ h
    · intro l s r h
      cases l with
      | nil => simpa [execStmts] using h
      | cons st rest =>
        simp only [execStmts] at h ⊢
        cases hst : execStmt f st s with
        | none => rw [hst] at h; simp at h
        | some p =>
          obtain ⟨s1, r1⟩ := p
          rw [hst] at h
          rw [ih1 _ _ _ hst]
          cases r1 with
          | norm => exact ih2 _ _ _ h
          | retv v => exact h
    · intro x i n b o s r h
      simp only [execFor] at h ⊢
      by_cases hin : i < n
      · simp only [if_pos hin] at h ⊢
        cases hb : execStmts f b { s with locals := setVar s.locals x i } with
        | none => rw [hb] at h; simp at h
        | some p =>
          obtain ⟨s1, r1⟩ := p
          rw [hb] at h
          rw [ih2 _ _ _ hb]
          cases r1 with
          | norm => exact ih3 _ _ _ _ _ _ _ h
          | retv v => exact h
      · simp only [if_neg hin] at h ⊢
        exact ih2 _ _ _ h

theorem execStmt_mono {f g : Nat} (hfg : f ≤ g) {st s r}
    (h : execStmt f st s = some r) : execStmt g st s = some r := by
  induction hfg with
  | refl => exact h
  | step _ ih => exact (execMonoSucc _).1 _ _ _ ih

theorem execStmts_mono {f g : Nat} (hfg : f ≤ g) {l s r}
    (h : execStmts f l s = some r) : execStmts g l s = some r := by
  induction hfg with
  | refl => exact h
  | step _ ih => exact (execMonoSucc _).2.1 _ _ _ ih

theorem execFor_mono {f g : Nat} (hfg : f ≤ g) {x i n b o s r}
    (h : execFor f x i n b o s = some r) : execFor g x i n b o s = some r := by
  induction hfg with
  | refl => exact h
  | step _ ih => exact (execMonoSucc _).2.2 _ _ _ _ _ _ _ ih

/-! ## Inversion lemmas for the interpreter -/

theorem execStmts_nil_inv {f : Nat} {s : St} {r : St × Res}
    (h : execStmts f [] s = some r) : r = (s, .norm) := by
  cases f with
  | zero => simp [execStmts] at h
  | succ f => simp only [execStmts, Option.some.injEq] at h; exact h.symm

theorem execStmts_cons_inv {f : Nat} {st : Stmt} {rest : List Stmt} {s : St}
    {r : St × Res} (h : execStmts f (st :: rest) s = some r) :
    ∃ g s1 r1, f = g + 1 ∧ execStmt g st s = some (s1, r1) ∧
      ((r1 = Res.norm ∧ execStmts g rest s1 = some r) ∨
       (∃ v, r1 = Res.retv v ∧ r = (s1, Res.retv v))) := by
  cases f with
  | zero => simp [execStmts] at h
  | succ g =>
    simp only [execStmts] at h
    cases hst : execStmt g st s with
    | none => rw [hst] at h; simp at h
    | some p =>
      obtain ⟨s1, r1⟩ := p
      rw [hst] at h
      cases r1 with
      | norm => exact ⟨g, s1, .norm, rfl, hst, Or.inl ⟨rfl, h⟩⟩
      | retv v =>
        simp only [Option.some.injEq] at h
        exact ⟨g, s1, .retv v, rfl, hst, Or.inr ⟨v, rfl, h.symm⟩⟩

theorem execStmt_assign_inv {f l x e s r}
    (h : execStmt f (Stmt.assign l x e) s = some r) :
    ∃ v, eval e s.locals = some v ∧
      r = ({ s with locals := setVar s.locals x v }, Res.norm) := by
  cases f with
  | zero => simp [execStmt] at h
  | succ f =>
    cases he : eval e s.locals with
    | none => simp [execStmt, he] at h
    | some v =>
      simp only [execStmt, he, Option.some.injEq] at h
      exact ⟨v, rfl, h.symm⟩

theorem execStmt_ret_inv {f l e s r}
    (h : execStmt f (Stmt.ret l e) s = some r) :
    ∃ v, eval e s.locals = some v ∧ r = (s, Res.retv v) := by
  cases f with
  | zero => simp [execStmt] at h
  | succ f =>
    cases he : eval e s.locals with
    | none => simp [execStmt, he] at h
    | some v =>
      simp only [execStmt, he, Option.some.injEq] at h
      exact ⟨v, rfl, h.symm⟩

theorem execStmt_record_inv {f l0 l s r}
    (h : execStmt f (Stmt.exprStmt l0 (CallE.recordState l)) s = some r) :
    r = (recordState l s, Res.norm) := by
  cases f with
  | zero => simp [execStmt] at h
  | succ f => simp only [execStmt, Option.some.injEq] at h; exact h.symm

theorem execStmt_dump_inv {f l0 s r}
    (h : execStmt f (Stmt.exprStmt l0 CallE.dumpState) s = some r) :
    r = ({ s with dumps := s.dumps + 1 }, Res.norm) := by
  cases f with
  | zero => simp [execStmt] at h
  | succ f => simp only [execStmt, Option.some.injEq] at h; exact h.symm

theorem execStmt_if_inv {f l t b o s r}
    (h : execStmt f (Stmt.ifS l t b o) s = some r) :
    ∃ g c, f = g + 1 ∧ eval t s.locals = some c ∧
      ((truthy c = true ∧ execStmts g b s = some r) ∨
       (truthy c = false ∧ execStmts g o s = some r)) := by
  cases f with
  | zero => simp [execStmt] at h
  | succ g =>
    cases he : eval t s.locals with
    | none => simp [execStmt, he] at h
    | some c =>
      simp only [execStmt, he] at h
      by_cases hc : truthy c
      · simp only [hc, if_pos] at h
        exact ⟨g, c, rfl, rfl, Or.inl ⟨hc, h⟩⟩
      · simp only [hc, Bool.false_eq_true, if_false] at h
        exact ⟨g, c, rfl, rfl, Or.inr ⟨by simpa using hc, h⟩⟩

theorem execStmt_while_inv {f l t b o s r}
    (h : execStmt f (Stmt.whileS l t b o) s = some r) :
    ∃ g c, f = g + 1 ∧ eval t s.locals = some c ∧
      ((truthy c = false ∧ execStmts g o s = some r) ∨
       (truthy c = true ∧ ∃ s1 r1, execStmts g b s = some (s1, r1) ∧
         ((r1 = Res.norm ∧ execStmt g (Stmt.whileS l t b o) s1 = some r) ∨
          (∃ v, r1 = Res.retv v ∧ r = (s1, Res.retv v))))) := by
  cases f with
  | zero => simp [execStmt] at h
  | succ g =>
    cases he : eval t s.locals with
    | none => simp [execStmt, he] at h
    | some c =>
      simp only [execStmt, he] at h
      by_cases hc : truthy c
      · simp only [hc, if_pos] at h
        cases hb : execStmts g b s with
        | none => rw [hb] at h; simp at h
        | some p =>
          obtain ⟨s1, r1⟩ := p
          rw [hb] at h
          cases r1 with
          | norm =>
            exact ⟨g, c, rfl, rfl, Or.inr ⟨hc, s1, .norm, hb, Or.inl ⟨rfl, h⟩⟩⟩
          | retv v =>
            simp only [Option.some.injEq] at h
            exact ⟨g, c, rfl, rfl,
              Or.inr ⟨hc, s1, .retv v, hb, Or.inr ⟨v, rfl, h.symm⟩⟩⟩
      · simp only [hc, Bool.false_eq_true, if_false] at h
        exact ⟨g, c, rfl, rfl, Or.inl ⟨by simpa using hc, h⟩⟩

theorem execStmt_for_inv {f l x cnt b o s r}
    (h : execStmt f (Stmt.forS l x cnt b o) s = some r) :
    ∃ g n, f = g + 1 ∧ eval cnt s.locals = some n ∧
      execFor g x 0 n b o s = some r := by
  cases f with
  | zero => simp [execStmt] at h
  | succ g =>
    cases he : eval cnt s.locals with
    | none => simp [execStmt, he] at h
    | some n =>
      simp only [execStmt, he] at h
      exact ⟨g, n, rfl, rfl, h⟩

theorem execFor_inv {f x i n b o s r}
    (h : execFor f x i n b o s = some r) :
    ∃ g, f = g + 1 ∧
      ((¬ i < n ∧ execStmts g o s = some r) ∨
       (i < n ∧ ∃ s1 r1,
         execStmts g b { s with locals := setVar s.locals x i } = some (s1, r1) ∧
         ((r1 = Res.norm ∧ execFor g x (i + 1) n b o s1 = some r) ∨
          (∃ v, r1 = Res.retv v ∧ r = (s1, Res.retv v))))) := by
  cases f with
  | zero => simp [execFor] at h
  | succ g =>
    simp only [execFor] at h
    by_cases hin : i < n
    · simp only [if_pos hin] at h
      cases hb : execStmts g b { s with locals := setVar s.locals x i } with
      | none => rw [hb] at h; simp at h
      | some p =>
        obtain ⟨s1, r1⟩ := p
        rw [hb] at h
        cases r1 with
        | norm => exact ⟨g, rfl, Or.inr ⟨hin, s1, .norm, hb, Or.inl ⟨rfl, h⟩⟩⟩
        | retv v =>
          simp only [Option.some.injEq] at h
          exact ⟨g, rfl, Or.inr ⟨hin, s1, .retv v, hb, Or.inr ⟨v, rfl, h.symm⟩⟩⟩
    · simp only [if_neg hin] at h
      exact ⟨g, rfl, Or.inl ⟨hin, h⟩⟩

theorem ExecStmtsR.nil (s : St) : ExecStmtsR [] s (s, .norm) :=
  ⟨1, rfl⟩

theorem ExecStmtsR.cons_norm {st rest s s1 r}
    (h1 : ExecStmtR st s (s1, Res.norm)) (h2 : ExecStmtsR rest s1 r) :
    ExecStmtsR (st :: rest) s r := by
  obtain ⟨f1, h1⟩ := h1
  obtain ⟨f2, h2⟩ := h2
  refine ⟨max f1 f2 + 1, ?_⟩
  simp only [execStmts]
  rw [execStmt_mono (le_max_left f1 f2) h1]
  exact execStmts_mono (le_max_right f1 f2) h2

theorem ExecStmtsR.cons_ret {st rest s s1 v}
    (h1 : ExecStmtR st s (s1, Res.retv v)) :
    ExecStmtsR (st :: rest) s (s1, Res.retv v) := by
  obtain ⟨f1, h1⟩ := h1
  refine ⟨f1 + 1, ?_⟩
  simp only [execStmts]
  rw [h1]

theorem ExecStmtsR.singleton {st s r} (h : ExecStmtR st s r) :
    ExecStmtsR [st] s r := by
  obtain ⟨s1, r1⟩ := r
  cases r1 with
  | norm => exact ExecStmtsR.cons_norm h (ExecStmtsR.nil s1)
  | retv v => exact ExecStmtsR.cons_ret h

theorem ExecStmtsR.singleton_inv {st s r} (h : ExecStmtsR [st] s r) :
    ExecStmtR st s r := by
  obtain ⟨f, h⟩ := h
  obtain ⟨g, s1, r1, rfl, hst, hrest⟩ := execStmts_cons_inv h
  rcases hrest with ⟨rfl, hr⟩ | ⟨v, rfl, rfl⟩
  · obtain rfl := execStmts_nil_inv hr
    exact ⟨g, hst⟩
  · exact ⟨g, hst⟩

theorem ExecStmtsR.append_norm {l1 l2 s s1 r}
    (h1 : ExecStmtsR l1 s (s1, Res.norm)) (h2 : ExecStmtsR l2 s1 r) :
    ExecStmtsR (l1 ++ l2) s r := by
  induction l1 generalizing s with
  | nil =>
    obtain ⟨f, h1⟩ := h1
    have h0 := execStmts_nil_inv h1
    simp only [Prod.mk.injEq] at h0
    obtain ⟨rfl, -⟩ := h0
    simpa using h2
  | cons st rest ih =>
    obtain ⟨f, h1⟩ := h1
    obtain ⟨g, sm, r1, rfl, hst, hrest⟩ := execStmts_cons_inv h1
    rcases hrest with ⟨rfl, hr⟩ | ⟨v, rfl, heq⟩
    · exact ExecStmtsR.cons_norm ⟨g, hst⟩ (ih ⟨g, hr⟩)
    · simp at heq

theorem ExecStmtsR.append_ret {l1 l2 s s1 v}
    (h1 : ExecStmtsR l1 s (s1, Res.retv v)) :
    ExecStmtsR (l1 ++ l2) s (s1, Res.retv v) := by
  induction l1 generalizing s with
  | nil =>
    obtain ⟨f, h1⟩ := h1
    have := execStmts_nil_inv h1
    simp_all
  | cons st rest ih =>
    obtain ⟨f, h1⟩ := h1
    obtain ⟨g, sm, r1, rfl, hst, hrest⟩ := execStmts_cons_inv h1
    rcases hrest with ⟨rfl, hr⟩ | ⟨w, rfl, heq⟩
    · exact ExecStmtsR.cons_norm ⟨g, hst⟩ (ih ⟨g, hr⟩)
    · simp only [Prod.mk.injEq, Res.retv.injEq] at heq
      obtain ⟨rfl, rfl⟩ := heq
      exact ExecStmtsR.cons_ret ⟨g, hst⟩

/-! Introduction rules mirroring each interpreter step. -/

theorem ExecStmtR.assign {l x e s v} (he : eval e s.locals = some v) :
    ExecStmtR (Stmt.assign l x e) s
      ({ s with locals := setVar s.locals x v }, Res.norm) :=
  ⟨1, by simp [execStmt, he]⟩

theorem ExecStmtR.ret {l e s v} (he : eval e s.locals = some v) :
    ExecStmtR (Stmt.ret l e) s (s, Res.retv v) :=
  ⟨1, by simp [execStmt, he]⟩

theorem ExecStmtR.record {l0 l s} :
    ExecStmtR (Stmt.exprStmt l0 (CallE.recordState l)) s
      (recordState l s, Res.norm) :=
  ⟨1, by simp [execStmt]⟩

theorem ExecStmtR.dump {l0 s} :
    ExecStmtR (Stmt.exprStmt l0 CallE.dumpState) s
      ({ s with dumps := s.dumps + 1 }, Res.norm) :=
  ⟨1, by simp [execStmt]⟩

theorem ExecStmtR.if_true {l t b o s c r} (he : eval t s.locals = some c)
    (hc : truthy c = true) (hb : ExecStmtsR b s r) :
    ExecStmtR (Stmt.ifS l t b o) s r := by
  obtain ⟨f, hb⟩ := hb
  exact ⟨f + 1, by simp [execStmt, he, hc, hb]⟩

theorem ExecStmtR.if_false {l t b o s c r} (he : eval t s.locals = some c)
    (hc : truthy c = false) (ho : ExecStmtsR o s r) :
    ExecStmtR (Stmt.ifS l t b o) s r := by
  obtain ⟨f, ho⟩ := ho
  exact ⟨f + 1, by simp [execStmt, he, hc, ho]⟩

theorem ExecStmtR.while_false {l t b o s c r} (he : eval t s.locals = some c)
    (hc : truthy c = false) (ho : ExecStmtsR o s r) :
    ExecStmtR (Stmt.whileS l t b o) s r := by
  obtain ⟨f, ho⟩ := ho
  exact ⟨f + 1, by simp [execStmt, he, hc, ho]⟩

theorem ExecStmtR.while_true_norm {l t b o s c s1 r}
    (he : eval t s.locals = some c) (hc : truthy c = true)
    (hb : ExecStmtsR b s (s1, Res.norm))
    (hk : ExecStmtR (Stmt.whileS l t b o) s1 r) :
    ExecStmtR (Stmt.whileS l t b o) s r := by
  obtain ⟨f1, hb⟩ := hb
  obtain ⟨f2, hk⟩ := hk
  refine ⟨max f1 f2 + 1, ?_⟩
  simp only [execStmt, he, hc, if_pos]
  rw [execStmts_mono (le_max_left f1 f2) hb]
  exact execStmt_mono (le_max_right f1 f2) hk

theorem ExecStmtR.while_true_ret {l t b o s c s1 v}
    (he : eval t s.locals = some c) (hc : truthy c = true)
    (hb : ExecStmtsR b s (s1, Res.retv v)) :
    ExecStmtR (Stmt.whileS l t b o) s (s1, Res.retv v) := by
  obtain ⟨f1, hb⟩ := hb
  exact ⟨f1 + 1, by simp [execStmt, he, hc, hb]⟩

theorem ExecStmtR.forS {l x cnt b o s n r} (he : eval cnt s.locals = some n)
    (hf : ExecForR x 0 n b o s r) :
    ExecStmtR (Stmt.forS l x cnt b o) s r := by
  obtain ⟨f, hf⟩ := hf
  exact ⟨f + 1, by simp [execStmt, he, hf]⟩

theorem ExecForR.done {x i n b o s r} (hin : ¬ i < n)
    (ho : ExecStmtsR o s r) : ExecForR x i n b o s r := by
  obtain ⟨f, ho⟩ := ho
  exact ⟨f + 1, by simp [execFor, hin, ho]⟩

theorem ExecForR.step_norm {x i n b o s s1 r} (hin : i < n)
    (hb : ExecStmtsR b { s with locals := setVar s.locals x i } (s1, Res.norm))
    (hk : ExecForR x (i + 1) n b o s1 r) : ExecForR x i n b o s r := by
  obtain ⟨f1, hb⟩ := hb
  obtain ⟨f2, hk⟩ := hk
  refine ⟨max f1 f2 + 1, ?_⟩
  simp only [execFor, if_pos hin]
  rw [execStmts_mono (le_max_left f1 f2) hb]
  exact execFor_mono (le_max_right f1 f2) hk

theorem ExecForR.step_ret {x i n b o s s1 v} (hin : i < n)
    (hb : ExecStmtsR b { s with locals := setVar s.locals x i }
      (s1, Res.retv v)) : ExecForR x i n b o s (s1, Res.retv v) := by
  obtain ⟨f1, hb⟩ := hb
  exact ⟨f1 + 1, by simp [execFor, hin, hb]⟩

theorem fillItems_cons (st : Stmt) (rest : List Stmt) :
    fillItems (st :: rest) = fillChunk st ++ fillItems rest := rfl

theorem lookup_setVar_self (env : List (String × Int)) (x : String) (v : Int) :
    List.lookup x (setVar env x v) = some v := by
  induction env with
  | nil => simp [setVar, List.lookup]
  | cons p rest ih =>
    obtain ⟨y, w⟩ := p
    by_cases hxy : y = x
    · subst hxy
      simp [setVar, List.lookup]
    · have hxy' : (x == y) = false := by
        simp [Ne.symm hxy]
      simp [setVar, hxy, List.lookup, hxy', ih]

/-- Running the 4-statement return-rewrite from state `s`: binds the
temporary, appends one trace entry at the return's line whose snapshot
contains the temporary, bumps the dump count once, and returns the bound
value. -/
theorem return_chunk_run (l : Nat) (e : Expr) (s : St) (v : Int)
    (he : eval e s.locals = some v) :
    ExecStmtsR (_make_return_trace_call_exprs l e) s
      (St.mk (setVar s.locals RETVAL_NAME v)
        (s.trace ++ [(l, setVar s.locals RETVAL_NAME v)]) (s.dumps + 1),
       Res.retv v) := by
  refine ExecStmtsR.cons_norm (ExecStmtR.assign he) ?_
  refine ExecStmtsR.cons_norm ExecStmtR.record ?_
  refine ExecStmtsR.cons_norm ExecStmtR.dump ?_
  refine ExecStmtsR.cons_ret (ExecStmtR.ret ?_)
  simpa [eval] using lookup_setVar_self s.locals RETVAL_NAME v

/-- Running the single injected record-call statement appends exactly one
entry. -/
theorem execStmts_record_singleton_inv {f l0 l : Nat} {s : St} {r}
    (h : execStmts f [Stmt.exprStmt l0 (CallE.recordState l)] s = some r) :
    r = (recordState l s, Res.norm) := by
  obtain ⟨g, s1, r1, rfl, hst, hcase⟩ := execStmts_cons_inv h
  have h0 := execStmt_record_inv hst
  simp only [Prod.mk.injEq] at h0
  obtain ⟨rfl, rfl⟩ := h0
  rcases hcase with ⟨-, hk⟩ | ⟨v, hv, -⟩
  · exact execStmts_nil_inv hk
  · simp at hv

/-- Any normal exit of any `while` loop whose `orelse` is the single
injected record call — as the rewrite produces for a loop without an
alternative — happens by running that `orelse`: the final state is
`recordState l` of the state after the terminating condition check, i.e.
exactly one extra entry tagged with the loop's own line is appended last. -/
theorem while_norm_exit_record : ∀ (f : Nat) (l : Nat) (t0 : Expr)
    (B : List Stmt) (s t' : St),
    execStmt f (Stmt.whileS l t0 B [_make_record_state_call_expr l]) s =
      some (t', Res.norm) →
    ∃ sp, t' = recordState l sp := by
  intro f
  induction f using Nat.strong_induction_on with
  | _ f IH =>
    intro l t0 B s t' h
    obtain ⟨g, c, rfl, he, hcase⟩ := execStmt_while_inv h
    rcases hcase with ⟨-, ho⟩ | ⟨-, s1, r1, hb, hk⟩
    · have h0 := execStmts_record_singleton_inv ho
      simp only [Prod.mk.injEq] at h0
      exact ⟨s, h0.1⟩
    · rcases hk with ⟨-, hk⟩ | ⟨v, -, heq⟩
      · exact IH g (by omega) l t0 B s1 t' hk
      · simp at heq

/-- The `for`-loop analogue of `while_norm_exit_record`, over the `for`
iteration relation. -/
theorem execFor_norm_exit_record : ∀ (f : Nat) (x : String) (i n : Int)
    (B : List Stmt) (l : Nat) (s t' : St),
    execFor f x i n B [_make_record_state_call_expr l] s =
      some (t', Res.norm) →
    ∃ sp, t' = recordState l sp := by
  intro f
  induction f using Nat.strong_induction_on with
  | _ f IH =>
    intro x i n B l s t' h
    obtain ⟨g, rfl, hcase⟩ := execFor_inv h
    rcases hcase with ⟨-, ho⟩ | ⟨-, s1, r1, hb, hk⟩
    · have h0 := execStmts_record_singleton_inv ho
      simp only [Prod.mk.injEq] at h0
      exact ⟨s, h0.1⟩
    · rcases hk with ⟨-, hk⟩ | ⟨v, -, heq⟩
      · exact IH g (by omega) x (i + 1) n B l s1 t' hk
      · simp at heq

/-- A `for` statement whose `orelse` is the single injected record call
exits normally only through that `orelse`. -/
theorem forS_norm_exit_record (f : Nat) (l : Nat) (x : String) (cnt : Expr)
    (B : List Stmt) (s t' : St)
    (h : execStmt f (Stmt.forS l x cnt B [_make_record_state_call_expr l]) s =
      some (t', Res.norm)) :
    ∃ sp, t' = recordState l sp := by
  obtain ⟨g, n, rfl, -, hfor⟩ := execStmt_for_inv h
  exact execFor_norm_exit_record g x 0 n B l s t' hfor

/-! ## The claims -/

/-- Claim C5: for a conditional with an alternative branch, the emission
call prepended to the alternative's block is
`_make_record_state_call_expr l` where `l` is the controlling `if`
statement's own `lineno` — independent of the alternative's contents, whose
linenos never enter the rewrite of the prepended call. -/
theorem c5_else_prepend_uses_controlling_lineno
    (l : Nat) (t : Expr) (b o rest : List Stmt) :
    fillItems (Stmt.ifS l t b o :: rest) =
      Stmt.ifS l t (_make_record_state_call_expr l :: fillItems b)
        (_make_record_state_call_expr l :: fillItems o) :: fillItems rest := by
  simp [fillItems, fillChunk]

/-- Claim C7: on source text whose first character is not whitespace (zero
leading indentation), `strip_indent` is the identity. -/
theorem c7_strip_indent_noop_on_normalized (c : Char) (rest : List Char)
    (h : isWs c = false) : strip_indent (c :: rest) = c :: rest := by
  unfold strip_indent
  rw [find_indent_level_cons_not_ws c rest h]
  simp [joinLines_splitLines]

/-- Witness for C7 at the concrete source `"def foo(): pass"`. -/
theorem c7_witness :
    isWs 'd' = false ∧
      strip_indent ('d' :: "ef foo(): pass".toList) =
        'd' :: "ef foo(): pass".toList :=
  ⟨by decide, c7_strip_indent_noop_on_normalized 'd' _ (by decide)⟩

/-- Counterexample to claim C8: on `"  \nx"` the first line is entirely
whitespace and has length 2, yet `find_indent_level` returns 3 — the scan
runs past the first line's newline into the second line. -/
theorem c8_counterexample :
    (splitLines [' ', ' ', '\n', 'x']).headI = [' ', ' '] ∧
      (∀ c ∈ [' ', ' '], isWs c = true) ∧
      find_indent_level [' ', ' ', '\n', 'x'] = 3 ∧
      (3 : Nat) ≠ [' ', ' '].length := by
  refine ⟨by decide, by decide, by decide, by decide⟩

/-- Claim C8 (amended): `find_indent_level` scans the whole source text —
not only the first line — and returns the index of the first
non-whitespace character, or the length of the entire source when every
character (over all lines) is whitespace. -/
theorem c8_find_indent_level_scans_whole_source (s : List Char) :
    find_indent_level s = s.findIdx (fun c => !isWs c) ∧
      ((∀ c ∈ s, isWs c = true) → find_indent_level s = s.length) := by
  refine ⟨find_indent_level_eq_findIdx s, fun hall => ?_⟩
  induction s with
  | nil => rfl
  | cons c rest ih =>
    have hc : isWs c = true := hall c (by simp)
    simp only [find_indent_level, hc, if_pos, List.length_cons]
    rw [ih (fun d hd => hall d (by simp [hd]))]

/-- Witness for C8 (amended) at the all-whitespace source `"    "` (the
`test_find_indent_level` case expecting 4). -/
theorem c8_witness :
    find_indent_level [' ', ' ', ' ', ' '] =
        [' ', ' ', ' ', ' '].findIdx (fun c => !isWs c) ∧
      find_indent_level [' ', ' ', ' ', ' '] = [' ', ' ', ' ', ' '].length :=
  ⟨(c8_find_indent_level_scans_whole_source _).1,
    (c8_find_indent_level_scans_whole_source _).2 (by decide)⟩

/-- Claim C9: `strip_indent` is the total function mapping each line to its
suffix past the indent level (Python slicing `line[indent_level:]` never
raises; the `except IndexError` branch is dead code), and every line no
longer than the indent level becomes the empty line. -/
theorem c9_strip_indent_total_short_lines_empty (source : List Char) :
    strip_indent source =
      joinLines ((splitLines source).map
        (fun line => line.drop (find_indent_level source))) ∧
      (∀ line ∈ splitLines source,
        line.length ≤ find_indent_level source →
          line.drop (find_indent_level source) = []) := by
  refine ⟨rfl, fun line _ hlen => List.drop_eq_nil_of_le hlen⟩

/-- Witness for C9: in `"    x = 3\n\n    y"` the blank middle line (length
0 < indent level 4) maps to the empty line. -/
theorem c9_witness :
    strip_indent ("    x = 3\n\n    y".toList) =
      joinLines ((splitLines ("    x = 3\n\n    y".toList)).map
        (fun line => line.drop (find_indent_level ("    x = 3\n\n    y".toList)))) ∧
      ([] : List Char).drop (find_indent_level ("    x = 3\n\n    y".toList)) = [] := by
  constructor
  · exact (c9_strip_indent_total_short_lines_empty _).1
  · exact (c9_strip_indent_total_short_lines_empty _).2 []
      (by decide) (by decide)

/-- Claim C2: for a body of plain statements only (no nested blocks, no
return), any terminating run of the instrumented body ends normally and
appends exactly one trace entry per original statement, tagged with that
statement's own `lineno`, in source order. -/
theorem c2_plain_statements_one_entry_each (body : List Stmt)
    (hb : body.all isAssign = true) :
    ∀ f s s' r, execStmts f (fillItems body) s = some (s', r) →
      r = Res.norm ∧
        s'.trace.map Prod.fst = s.trace.map Prod.fst ++ body.map Stmt.lineno := by
  induction body with
  | nil =>
    intro f s s' r h
    have h0 := execStmts_nil_inv (by simpa [fillItems] using h)
    simp only [Prod.mk.injEq] at h0
    obtain ⟨rfl, rfl⟩ := h0
    simp
  | cons st rest ih =>
    simp only [List.all_cons, Bool.and_eq_true] at hb
    obtain ⟨hst, hrest⟩ := hb
    intro f s s' r h
    cases st with
    | ret l e => simp [isAssign] at hst
    | ifS l t b o => simp [isAssign] at hst
    | whileS l t b o => simp [isAssign] at hst
    | forS l x c b o => simp [isAssign] at hst
    | exprStmt l c => simp [isAssign] at hst
    | assign l x e =>
      rw [show fillItems (Stmt.assign l x e :: rest) =
          Stmt.assign l x e :: _make_record_state_call_expr l ::
            fillItems rest from rfl] at h
      obtain ⟨g, s1, r1, rfl, h1, hk⟩ := execStmts_cons_inv h
      obtain ⟨v, hv, heq⟩ := execStmt_assign_inv h1
      simp only [Prod.mk.injEq] at heq
      obtain ⟨rfl, rfl⟩ := heq
      rcases hk with ⟨-, hk⟩ | ⟨w, hw, -⟩
      · obtain ⟨g2, s2, r2, rfl, h2, hk2⟩ := execStmts_cons_inv hk
        have heq2 := execStmt_record_inv h2
        simp only [Prod.mk.injEq] at heq2
        obtain ⟨rfl, rfl⟩ := heq2
        rcases hk2 with ⟨-, hk2⟩ | ⟨w, hw, -⟩
        · obtain ⟨hr, htr⟩ := ih hrest g2 _ s' r hk2
          refine ⟨hr, ?_⟩
          rw [htr]
          simp [recordState, Stmt.lineno]
        · simp at hw
      · simp at hw

/-- Witness for C2 at `test_simple` (`x = 5; y = 6`, entries at lines 3 and
4, in order). -/
theorem c2_witness :
    Res.norm = Res.norm ∧
      (St.mk [("x", 5), ("y", 6)]
          [(3, [("x", 5)]), (4, [("x", 5), ("y", 6)])] 0).trace.map Prod.fst =
        initSt.trace.map Prod.fst ++ progSimple.map Stmt.lineno :=
  c2_plain_statements_one_entry_each progSimple rfl 100 initSt _ Res.norm rfl

/-- Claim C3: a `return` statement is rewritten to exactly the 4-statement
sequence assign-to-temporary / record at the return's line / dump / return
the temporary; running that sequence appends one trace entry at the
return's line whose snapshot contains the returned value under the
temporary's name, bumps the dump (flush) count exactly once, and returns
the original expression's value. -/
theorem c3_return_rewrite (l : Nat) (e : Expr) (rest : List Stmt) :
    fillItems (Stmt.ret l e :: rest) =
      Stmt.assign 0 RETVAL_NAME e :: _make_record_state_call_expr l ::
        _make_dump_state_call_expr :: Stmt.ret 0 (Expr.var RETVAL_NAME) ::
        fillItems rest ∧
      ∀ s v, eval e s.locals = some v →
        ExecStmtsR (fillItems (Stmt.ret l e :: rest)) s
          (St.mk (setVar s.locals RETVAL_NAME v)
            (s.trace ++ [(l, setVar s.locals RETVAL_NAME v)]) (s.dumps + 1),
           Res.retv v) ∧
        List.lookup RETVAL_NAME (setVar s.locals RETVAL_NAME v) = some v := by
  refine ⟨rfl, fun s v he => ⟨?_, lookup_setVar_self _ _ _⟩⟩
  refine ExecStmtsR.cons_norm (ExecStmtR.assign he) ?_
  refine ExecStmtsR.cons_norm ExecStmtR.record ?_
  refine ExecStmtsR.cons_norm ExecStmtR.dump ?_
  refine ExecStmtsR.cons_ret (ExecStmtR.ret ?_)
  simpa [eval] using lookup_setVar_self s.locals RETVAL_NAME v

/-- Witness for C3 at `test_return_wrapping` (`x = 3; return x`): the dump
count goes from 0 to 1 and the final snapshot binds the temporary to the
returned 3. -/
theorem c3_witness :
    fillItems [Stmt.ret 4 (Expr.var "x")] =
      [Stmt.assign 0 RETVAL_NAME (Expr.var "x"),
        _make_record_state_call_expr 4, _make_dump_state_call_expr,
        Stmt.ret 0 (Expr.var RETVAL_NAME)] ∧
      ExecStmtsR (fillItems [Stmt.ret 4 (Expr.var "x")])
        (St.mk [("x", 3)] [(3, [("x", 3)])] 0)
        (St.mk (setVar [("x", 3)] RETVAL_NAME 3)
          ([(3, [("x", 3)])] ++ [(4, setVar [("x", 3)] RETVAL_NAME 3)]) (0 + 1),
         Res.retv 3) ∧
      List.lookup RETVAL_NAME (setVar [("x", 3)] RETVAL_NAME 3) = some 3 :=
  ⟨(c3_return_rewrite 4 (Expr.var "x") []).1,
    (c3_return_rewrite 4 (Expr.var "x") []).2
      (St.mk [("x", 3)] [(3, [("x", 3)])] 0) 3 rfl⟩

/-- Claim C10: `_fill_body_with_record` injects a prepended record call
into the (originally empty) `orelse` of conditionals and loops.
Consequently (a) for any `if` without an alternative whose condition is
false, the run emits exactly one entry tagged with the `if`'s own line;
(b), (c) every `while` and every `for` without an alternative is rewritten
with `[record l]` as its `orelse` block, `l` the loop's own line; (d), (e)
every normal exit of any loop carrying that injected `orelse` — however
many iterations it ran — finishes by executing it: the final state is
`recordState l` of the state after the terminating condition check, so
exactly one extra entry tagged with the loop's line is the last thing
appended; (f), (g) concretely, `test_while` traces `[3,4,6,7,6,7,6,7,6]`
and `test_for` traces `[3,4,5,6,5,6,5,6,5]`, each with the trailing entry
at the loop's line. -/
theorem c10_injected_else_branch_emissions :
    (∀ l t b (s : St) c, eval t s.locals = some c → truthy c = false →
      ExecStmtsR (fillItems [Stmt.ifS l t b []]) s
        ({ s with trace := s.trace ++ [(l, s.locals)] }, Res.norm)) ∧
      (∀ l t0 b rest, fillItems (Stmt.whileS l t0 b [] :: rest) =
        Stmt.whileS l t0 (_make_record_state_call_expr l :: fillItems b)
          [_make_record_state_call_expr l] :: fillItems rest) ∧
      (∀ l x cnt b rest, fillItems (Stmt.forS l x cnt b [] :: rest) =
        Stmt.forS l x cnt (_make_record_state_call_expr l :: fillItems b)
          [_make_record_state_call_expr l] :: fillItems rest) ∧
      (∀ (f : Nat) l t0 (B : List Stmt) (s t' : St),
        execStmt f (Stmt.whileS l t0 B [_make_record_state_call_expr l]) s =
          some (t', Res.norm) → ∃ sp, t' = recordState l sp) ∧
      (∀ (f : Nat) l x cnt (B : List Stmt) (s t' : St),
        execStmt f (Stmt.forS l x cnt B [_make_record_state_call_expr l]) s =
          some (t', Res.norm) → ∃ sp, t' = recordState l sp) ∧
      (execStmts 100 (fillItems progWhile) initSt).map
          (fun p => (p.1.trace.map Prod.fst, p.2)) =
        some ([3, 4, 6, 7, 6, 7, 6, 7, 6], Res.norm) ∧
      (execStmts 100 (fillItems progFor) initSt).map
          (fun p => (p.1.trace.map Prod.fst, p.2)) =
        some ([3, 4, 5, 6, 5, 6, 5, 6, 5], Res.norm) := by
  refine ⟨fun l t b s c he hc => ?_, fun _ _ _ _ => rfl, fun _ _ _ _ _ => rfl,
    fun f l t0 B s t' h => while_norm_exit_record f l t0 B s t' h,
    fun f l x cnt B s t' h => forS_norm_exit_record f l x cnt B s t' h,
    rfl, rfl⟩
  refine ExecStmtsR.singleton (ExecStmtR.if_false he hc ?_)
  exact ExecStmtsR.singleton ExecStmtR.record

/-- Witness for C10: the `if`-with-no-else scenario — condition false at
locals `x = 3`, one entry at the `if`'s line 5 — and the loop-exit clause
applied to the instrumented `test_while` loop run to completion: its final
state is `recordState 6` of the state after the terminating check. -/
theorem c10_witness :
    ExecStmtsR
      (fillItems [Stmt.ifS 5 (Expr.lt (Expr.var "x") (Expr.const 3))
        [Stmt.assign 6 "y" (Expr.const 5)] []])
      (St.mk [("x", 3)] [] 0)
      ({ St.mk [("x", 3)] [] 0 with
          trace := [] ++ [(5, [("x", 3)])] }, Res.norm) ∧
      (∃ sp, St.mk [("x", 6), ("y", 6)]
          [(6, [("x", 3), ("y", 6)]), (7, [("x", 4), ("y", 6)]),
           (6, [("x", 4), ("y", 6)]), (7, [("x", 5), ("y", 6)]),
           (6, [("x", 5), ("y", 6)]), (7, [("x", 6), ("y", 6)]),
           (6, [("x", 6), ("y", 6)])] 0 = recordState 6 sp) :=
  ⟨c10_injected_else_branch_emissions.1 5 _ _ (St.mk [("x", 3)] [] 0) 0
      rfl rfl,
    c10_injected_else_branch_emissions.2.2.2.1 100 6
      (Expr.lt (Expr.var "x") (Expr.var "y"))
      (_make_record_state_call_expr 6 ::
        fillItems [Stmt.assign 7 "x" (Expr.add (Expr.var "x") (Expr.const 1))])
      (St.mk [("x", 3), ("y", 6)] [] 0) _ rfl⟩

/-- Erasing the injected record calls from a filled block recovers the
original block exactly, for any clean, return-free block: the rewrite only
inserts emission calls, never removes or reorders original statements. -/
theorem erase_fill : ∀ body : List Stmt, cleanBlock body = true →
    noRetBlock body = true → eraseBlock (fillItems body) = body
  | [], _, _ => by simp [fillItems, eraseBlock]
  | .assign l x e :: rest, hc, hr => by
      simp only [cleanBlock, Bool.and_eq_true] at hc
      simp only [noRetBlock, Bool.and_eq_true] at hr
      simp [fillItems, fillChunk, eraseBlock, eraseChunk,
        _make_record_state_call_expr, erase_fill rest hc.2 hr.2]
  | .ret l e :: rest, hc, hr => by
      simp [noRetBlock, noRetStmt] at hr
  | .exprStmt l c :: rest, hc, hr => by
      simp [cleanBlock, cleanStmt] at hc
  | .ifS l t b o :: rest, hc, hr => by
      simp only [cleanBlock, cleanStmt, Bool.and_eq_true] at hc
      simp only [noRetBlock, noRetStmt, Bool.and_eq_true] at hr
      simp [fillItems, fillChunk, eraseBlock, eraseChunk,
        _make_record_state_call_expr, erase_fill b hc.1.1 hr.1.1,
        erase_fill o hc.1.2 hr.1.2, erase_fill rest hc.2 hr.2]
  | .whileS l t b o :: rest, hc, hr => by
      simp only [cleanBlock, cleanStmt, Bool.and_eq_true] at hc
      simp only [noRetBlock, noRetStmt, Bool.and_eq_true] at hr
      simp [fillItems, fillChunk, eraseBlock, eraseChunk,
        _make_record_state_call_expr, erase_fill b hc.1.1 hr.1.1,
        erase_fill o hc.1.2 hr.1.2, erase_fill rest hc.2 hr.2]
  | .forS l x c b o :: rest, hc, hr => by
      simp only [cleanBlock, cleanStmt, Bool.and_eq_true] at hc
      simp only [noRetBlock, noRetStmt, Bool.and_eq_true] at hr
      simp [fillItems, fillChunk, eraseBlock, eraseChunk,
        _make_record_state_call_expr, erase_fill b hc.1.1 hr.1.1,
        erase_fill o hc.1.2 hr.1.2, erase_fill rest hc.2 hr.2]

/-- Claim C6: a statement with nested blocks is re-inserted with each
nested block recursively transformed behind exactly one prepended record
call, and no record call is appended after it at the enclosing level (the
chunk it contributes is the single rebuilt node); and the rewrite only
inserts — erasing the injected calls from the rewritten block recovers the
original statements, in their original relative order, for any clean
return-free block. -/
theorem c6_nested_blocks_no_duplicate_in_order :
    (∀ l t b o rest, fillItems (Stmt.ifS l t b o :: rest) =
      Stmt.ifS l t (_make_record_state_call_expr l :: fillItems b)
        (_make_record_state_call_expr l :: fillItems o) :: fillItems rest) ∧
      (∀ l t b o rest, fillItems (Stmt.whileS l t b o :: rest) =
        Stmt.whileS l t (_make_record_state_call_expr l :: fillItems b)
          (_make_record_state_call_expr l :: fillItems o) :: fillItems rest) ∧
      (∀ l x c b o rest, fillItems (Stmt.forS l x c b o :: rest) =
        Stmt.forS l x c (_make_record_state_call_expr l :: fillItems b)
          (_make_record_state_call_expr l :: fillItems o) :: fillItems rest) ∧
      (∀ body : List Stmt, cleanBlock body = true → noRetBlock body = true →
        eraseBlock (fillItems body) = body) :=
  ⟨fun _ _ _ _ _ => rfl, fun _ _ _ _ _ => rfl, fun _ _ _ _ _ _ => rfl,
    erase_fill⟩

/-- Witness for C6 at the `test_nested_if_in_for` shape: a `for` whose body
is an `if`; the erase round-trip recovers the program. -/
theorem c6_witness :
    eraseBlock (fillItems
      [Stmt.forS 5 "i" (Expr.var "x")
        [Stmt.ifS 6 (Expr.lt (Expr.const (-1)) (Expr.var "s"))
          [Stmt.assign 7 "s" (Expr.add (Expr.var "s") (Expr.var "i"))] []]
        []]) =
      [Stmt.forS 5 "i" (Expr.var "x")
        [Stmt.ifS 6 (Expr.lt (Expr.const (-1)) (Expr.var "s"))
          [Stmt.assign 7 "s" (Expr.add (Expr.var "s") (Expr.var "i"))] []]
        []] :=
  c6_nested_blocks_no_duplicate_in_order.2.2.2 _ rfl rfl

theorem simPost_trans {t t1 s1 s' : St} {r : Res} {t' : St}
    (h1 : simPost t s1 Res.norm t1) (h2 : simPost t1 s' r t') :
    simPost t s' r t' := by
  obtain ⟨⟨d1, hd1⟩, hn1, -⟩ := h1
  obtain ⟨⟨d2, hd2⟩, hn2, hr2⟩ := h2
  obtain ⟨-, hdu1⟩ := hn1 rfl
  refine ⟨⟨d1 ++ d2, by rw [hd2, hd1, List.append_assoc]⟩, ?_, ?_⟩
  · intro hr
    obtain ⟨hl, hd⟩ := hn2 hr
    exact ⟨hl, by rw [hd, hdu1]⟩
  · intro v hv
    obtain ⟨hl, hd⟩ := hr2 v hv
    exact ⟨hl, by rw [hd, hdu1]⟩

theorem simPost_record {lw : Nat} {t s' : St} {r : Res} {t' : St}
    (h : simPost (recordState lw t) s' r t') : simPost t s' r t' := by
  obtain ⟨⟨d, hd⟩, hn, hr⟩ := h
  exact ⟨⟨(lw, t.locals) :: d,
    by simpa [recordState, List.append_assoc] using hd⟩, hn, hr⟩

/-- A clean (uninstrumented) statement tree never touches the record
store: the original body's only effect is on the locals (and the returned
value). -/
theorem cleanRunEffects : ∀ f : Nat,
    (∀ st (s s' : St) r, cleanStmt st = true → execStmt f st s = some (s', r) →
      s'.trace = s.trace ∧ s'.dumps = s.dumps) ∧
    (∀ (l : List Stmt) (s s' : St) r, cleanBlock l = true →
      execStmts f l s = some (s', r) → s'.trace = s.trace ∧ s'.dumps = s.dumps) ∧
    (∀ x (i n : Int) b o (s s' : St) r, cleanBlock b = true →
      cleanBlock o = true → execFor f x i n b o s = some (s', r) →
      s'.trace = s.trace ∧ s'.dumps = s.dumps) := by
  intro f
  induction f using Nat.strong_induction_on with
  | _ f IH =>
    refine ⟨?_, ?_, ?_⟩
    · intro st s s' r hc h
      cases st with
      | assign l x e =>
        obtain ⟨v, -, heq⟩ := execStmt_assign_inv h
        simp only [Prod.mk.injEq] at heq
        obtain ⟨rfl, -⟩ := heq
        exact ⟨rfl, rfl⟩
      | ret l e =>
        obtain ⟨v, -, heq⟩ := execStmt_ret_inv h
        simp only [Prod.mk.injEq] at heq
        obtain ⟨rfl, -⟩ := heq
        exact ⟨rfl, rfl⟩
      | exprStmt l c => simp [cleanStmt] at hc
      | ifS l t b o =>
        simp only [cleanStmt, Bool.and_eq_true] at hc
        obtain ⟨g, c, rfl, -, hcase⟩ := execStmt_if_inv h
        rcases hcase with ⟨-, hb⟩ | ⟨-, ho⟩
        · exact (IH g (by omega)).2.1 b s s' r hc.1 hb
        · exact (IH g (by omega)).2.1 o s s' r hc.2 ho
      | whileS l t b o =>
        simp only [cleanStmt, Bool.and_eq_true] at hc
        obtain ⟨g, c, rfl, -, hcase⟩ := execStmt_while_inv h
        rcases hcase with ⟨-, ho⟩ | ⟨-, s1, r1, hb, hk⟩
        · exact (IH g (by omega)).2.1 o s s' r hc.2 ho
        · obtain ⟨h1, h2⟩ := (IH g (by omega)).2.1 b s s1 r1 hc.1 hb
          rcases hk with ⟨-, hk⟩ | ⟨v, -, heq⟩
          · obtain ⟨h3, h4⟩ := (IH g (by omega)).1 _ s1 s' r
              (by simp [cleanStmt, hc.1, hc.2]) hk
            exact ⟨h3.trans h1, h4.trans h2⟩
          · simp only [Prod.mk.injEq] at heq
            obtain ⟨rfl, -⟩ := heq
            exact ⟨h1, h2⟩
      | forS l x cnt b o =>
        simp only [cleanStmt, Bool.and_eq_true] at hc
        obtain ⟨g, n, rfl, -, hfor⟩ := execStmt_for_inv h
        exact (IH g (by omega)).2.2 x 0 n b o s s' r hc.1 hc.2 hfor
    · intro l s s' r hc h
      cases l with
      | nil =>
        have h0 := execStmts_nil_inv h
        simp only [Prod.mk.injEq] at h0
        obtain ⟨rfl, -⟩ := h0
        exact ⟨rfl, rfl⟩
      | cons st rest =>
        simp only [cleanBlock, Bool.and_eq_true] at hc
        obtain ⟨g, s1, r1, rfl, hst, hcase⟩ := execStmts_cons_inv h
        obtain ⟨h1, h2⟩ := (IH g (by omega)).1 st s s1 r1 hc.1 hst
        rcases hcase with ⟨-, hk⟩ | ⟨v, -, heq⟩
        · obtain ⟨h3, h4⟩ := (IH g (by omega)).2.1 rest s1 s' r hc.2 hk
          exact ⟨h3.trans h1, h4.trans h2⟩
        · simp only [Prod.mk.injEq] at heq
          obtain ⟨rfl, -⟩ := heq
          exact ⟨h1, h2⟩
    · intro x i n b o s s' r hcb hco h
      obtain ⟨g, rfl, hcase⟩ := execFor_inv h
      rcases hcase with ⟨-, ho⟩ | ⟨-, s1, r1, hb, hk⟩
      · exact (IH g (by omega)).2.1 o s s' r hco ho
      · obtain ⟨h1, h2⟩ :=
          (IH g (by omega)).2.1 b _ s1 r1 hcb hb
        rcases hk with ⟨-, hk⟩ | ⟨v, -, heq⟩
        · obtain ⟨h3, h4⟩ :=
            (IH g (by omega)).2.2 x (i + 1) n b o s1 s' r hcb hco hk
          exact ⟨h3.trans h1, h4.trans h2⟩
        · simp only [Prod.mk.injEq] at heq
          obtain ⟨rfl, -⟩ := heq
          exact ⟨h1, h2⟩

/-- The simulation: every terminating run of a clean original statement /
block / loop is matched by a run of its instrumented rewrite from any
start state with the same locals, finishing with the same result and in a
state related by `simPost`. -/
theorem simAll : ∀ f : Nat,
    (∀ st (s s' : St) r (t : St), cleanStmt st = true →
      execStmt f st s = some (s', r) → t.locals = s.locals →
      ∃ t', ExecStmtsR (fillChunk st) t (t', r) ∧ simPost t s' r t') ∧
    (∀ (l : List Stmt) (s s' : St) r (t : St), cleanBlock l = true →
      execStmts f l s = some (s', r) → t.locals = s.locals →
      ∃ t', ExecStmtsR (fillItems l) t (t', r) ∧ simPost t s' r t') ∧
    (∀ x (i n : Int) b o (s s' : St) r (t : St) (lw : Nat),
      cleanBlock b = true → cleanBlock o = true →
      execFor f x i n b o s = some (s', r) → t.locals = s.locals →
      ∃ t', ExecForR x i n (_make_record_state_call_expr lw :: fillItems b)
          (_make_record_state_call_expr lw :: fillItems o) t (t', r) ∧
        simPost t s' r t') := by
  intro f
  induction f using Nat.strong_induction_on with
  | _ f IH =>
    refine ⟨?_, ?_, ?_⟩
    · intro st s s' r t hc h ht
      cases st with
      | assign l x e =>
        obtain ⟨v, hv, heq⟩ := execStmt_assign_inv h
        simp only [Prod.mk.injEq] at heq
        obtain ⟨rfl, rfl⟩ := heq
        refine ⟨recordState l { t with locals := setVar t.locals x v },
          ?_, ?_⟩
        · refine ExecStmtsR.cons_norm (ExecStmtR.assign (by rw [ht]; exact hv)) ?_
          exact ExecStmtsR.cons_norm ExecStmtR.record (ExecStmtsR.nil _)
        · refine ⟨⟨[(l, setVar t.locals x v)], by simp [recordState]⟩, ?_, ?_⟩
          · intro _
            exact ⟨by simp [recordState, ht], by simp [recordState]⟩
          · intro v hv
            simp at hv
      | ret l e =>
        obtain ⟨v, hv, heq⟩ := execStmt_ret_inv h
        simp only [Prod.mk.injEq] at heq
        obtain ⟨rfl, rfl⟩ := heq
        refine ⟨St.mk (setVar t.locals RETVAL_NAME v)
          (t.trace ++ [(l, setVar t.locals RETVAL_NAME v)]) (t.dumps + 1),
          return_chunk_run l e t v (by rw [ht]; exact hv), ?_⟩
        refine ⟨⟨[(l, setVar t.locals RETVAL_NAME v)], rfl⟩, ?_, ?_⟩
        · intro hr; simp at hr
        · intro w hw
          simp only [Res.retv.injEq] at hw
          subst hw
          exact ⟨by rw [ht], rfl⟩
      | exprStmt l c => simp [cleanStmt] at hc
      | ifS l t0 b o =>
        simp only [cleanStmt, Bool.and_eq_true] at hc
        obtain ⟨g, c, rfl, he, hcase⟩ := execStmt_if_inv h
        rcases hcase with ⟨htr, hb⟩ | ⟨htr, ho⟩
        · obtain ⟨t', hR, hpost⟩ := (IH g (by omega)).2.1 b s s' r
            (recordState l t) hc.1 hb (by simp [recordState, ht])
          refine ⟨t', ExecStmtsR.singleton ?_, simPost_record hpost⟩
          exact ExecStmtR.if_true (by rw [ht]; exact he) htr
            (ExecStmtsR.cons_norm ExecStmtR.record hR)
        · obtain ⟨t', hR, hpost⟩ := (IH g (by omega)).2.1 o s s' r
            (recordState l t) hc.2 ho (by simp [recordState, ht])
          refine ⟨t', ExecStmtsR.singleton ?_, simPost_record hpost⟩
          exact ExecStmtR.if_false (by rw [ht]; exact he) htr
            (ExecStmtsR.cons_norm ExecStmtR.record hR)
      | whileS l t0 b o =>
        simp only [cleanStmt, Bool.and_eq_true] at hc
        obtain ⟨g, c, rfl, he, hcase⟩ := execStmt_while_inv h
        rcases hcase with ⟨htr, ho⟩ | ⟨htr, s1, r1, hb, hk⟩
        · obtain ⟨t', hR, hpost⟩ := (IH g (by omega)).2.1 o s s' r
            (recordState l t) hc.2 ho (by simp [recordState, ht])
          refine ⟨t', ExecStmtsR.singleton ?_, simPost_record hpost⟩
          exact ExecStmtR.while_false (by rw [ht]; exact he) htr
            (ExecStmtsR.cons_norm ExecStmtR.record hR)
        · obtain ⟨t1, hR1, hpost1⟩ := (IH g (by omega)).2.1 b s s1 r1
            (recordState l t) hc.1 hb (by simp [recordState, ht])
          have hpost1' : simPost t s1 r1 t1 := simPost_record hpost1
          rcases hk with ⟨hr1, hk⟩ | ⟨v, hr1, heq⟩
          · subst hr1
            obtain ⟨ht1l, -⟩ := hpost1'.2.1 rfl
            obtain ⟨t', hR2, hpost2⟩ := (IH g (by omega)).1
              (Stmt.whileS l t0 b o) s1 s' r t1
              (by simp [cleanStmt, hc.1, hc.2]) hk ht1l
            have hR2' := ExecStmtsR.singleton_inv
              (by simpa [fillChunk] using hR2)
            refine ⟨t', ExecStmtsR.singleton ?_, simPost_trans hpost1' hpost2⟩
            exact ExecStmtR.while_true_norm (by rw [ht]; exact he) htr
              (ExecStmtsR.cons_norm ExecStmtR.record hR1) hR2'
          · subst hr1
            simp only [Prod.mk.injEq] at heq
            obtain ⟨rfl, rfl⟩ := heq
            refine ⟨t1, ExecStmtsR.singleton ?_, hpost1'⟩
            exact ExecStmtR.while_true_ret (by rw [ht]; exact he) htr
              (ExecStmtsR.cons_norm ExecStmtR.record hR1)
      | forS l x cnt b o =>
        simp only [cleanStmt, Bool.and_eq_true] at hc
        obtain ⟨g, n, rfl, he, hfor⟩ := execStmt_for_inv h
        obtain ⟨t', hR, hpost⟩ := (IH g (by omega)).2.2 x 0 n b o s s' r t l
          hc.1 hc.2 hfor ht
        exact ⟨t', ExecStmtsR.singleton
          (ExecStmtR.forS (by rw [ht]; exact he) hR), hpost⟩
    · intro l s s' r t hc h ht
      cases l with
      | nil =>
        have h0 := execStmts_nil_inv h
        simp only [Prod.mk.injEq] at h0
        obtain ⟨rfl, rfl⟩ := h0
        refine ⟨t, ?_, ⟨[], by simp⟩, fun _ => ⟨ht, rfl⟩, fun v hv => by simp at hv⟩
        simpa [fillItems] using ExecStmtsR.nil t
      | cons st rest =>
        simp only [cleanBlock, Bool.and_eq_true] at hc
        obtain ⟨g, s1, r1, rfl, hst, hcase⟩ := execStmts_cons_inv h
        rcases hcase with ⟨hr1, hk⟩ | ⟨v, hr1, heq⟩
        · subst hr1
          obtain ⟨t1, hR1, hpost1⟩ := (IH g (by omega)).1 st s s1 Res.norm t
            hc.1 hst ht
          obtain ⟨ht1l, -⟩ := hpost1.2.1 rfl
          obtain ⟨t', hR2, hpost2⟩ := (IH g (by omega)).2.1 rest s1 s' r t1
            hc.2 hk ht1l
          refine ⟨t', ?_, simPost_trans hpost1 hpost2⟩
          rw [fillItems_cons]
          exact ExecStmtsR.append_norm hR1 hR2
        · subst hr1
          simp only [Prod.mk.injEq] at heq
          obtain ⟨rfl, rfl⟩ := heq
          obtain ⟨t1, hR1, hpost1⟩ := (IH g (by omega)).1 st s s'
            (Res.retv v) t hc.1 hst ht
          refine ⟨t1, ?_, hpost1⟩
          rw [fillItems_cons]
          exact ExecStmtsR.append_ret hR1
    · intro x i n b o s s' r t lw hcb hco h ht
      obtain ⟨g, rfl, hcase⟩ := execFor_inv h
      rcases hcase with ⟨hin, ho⟩ | ⟨hin, s1, r1, hb, hk⟩
      · obtain ⟨t', hR, hpost⟩ := (IH g (by omega)).2.1 o s s' r
          (recordState lw t) hco ho (by simp [recordState, ht])
        refine ⟨t', ExecForR.done hin
          (ExecStmtsR.cons_norm ExecStmtR.record hR), simPost_record hpost⟩
      · have htmod : (St.mk (setVar t.locals x i) t.trace t.dumps).locals =
            ({ s with locals := setVar s.locals x i } : St).locals := by
          simp [ht]
        rcases hk with ⟨hr1, hk⟩ | ⟨v, hr1, heq⟩
        · subst hr1
          obtain ⟨t1, hR1, hpost1⟩ := (IH g (by omega)).2.1 b _ s1 Res.norm
            (recordState lw (St.mk (setVar t.locals x i) t.trace t.dumps))
            hcb hb (by simpa [recordState] using htmod)
          have hpost1' : simPost t s1 Res.norm t1 := by
            have h0 : simPost (St.mk (setVar t.locals x i) t.trace t.dumps)
                s1 Res.norm t1 := simPost_record hpost1
            exact ⟨h0.1, h0.2.1, h0.2.2⟩
          obtain ⟨ht1l, -⟩ := hpost1'.2.1 rfl
          obtain ⟨t', hR2, hpost2⟩ := (IH g (by omega)).2.2 x (i + 1) n b o
            s1 s' r t1 lw hcb hco hk ht1l
          refine ⟨t', ?_, simPost_trans hpost1' hpost2⟩
          refine ExecForR.step_norm hin ?_ hR2
          exact ExecStmtsR.cons_norm ExecStmtR.record hR1
        · subst hr1
          simp only [Prod.mk.injEq] at heq
          obtain ⟨rfl, rfl⟩ := heq
          obtain ⟨t1, hR1, hpost1⟩ := (IH g (by omega)).2.1 b _ s'
            (Res.retv v)
            (recordState lw (St.mk (setVar t.locals x i) t.trace t.dumps))
            hcb hb (by simpa [recordState] using htmod)
          have hpost1' : simPost t s' (Res.retv v) t1 := by
            have h0 : simPost (St.mk (setVar t.locals x i) t.trace t.dumps)
                s' (Res.retv v) t1 := simPost_record hpost1
            exact ⟨h0.1, h0.2.1, h0.2.2⟩
          refine ⟨t1, ?_, hpost1'⟩
          refine ExecForR.step_ret hin ?_
          exact ExecStmtsR.cons_norm ExecStmtR.record hR1

/-- Claim C4: for any original (clean) body whose run from `s` terminates
with result `r`, (a) the original run touches neither the trace buffer nor
the dump counter — its only effects are on its locals and its result; and
(b) from any start state with the same locals, the instrumented body runs
to the very same result `r` (same return value, same normal/return
finish), with the same final locals (plus, on a return path, the private
`RETVAL_NAME` temporary), and its only added effects are appending trace
entries to the buffer and exactly one dump (flush) per taken return path
(none on a normal fall-through, which takes no return path). -/
theorem c4_instrumented_refines_original (body : List Stmt) (f : Nat)
    (s s' : St) (r : Res) (hc : cleanBlock body = true)
    (h : execStmts f body s = some (s', r)) :
    (s'.trace = s.trace ∧ s'.dumps = s.dumps) ∧
      ∀ t : St, t.locals = s.locals →
        ∃ t', ExecStmtsR (fillItems body) t (t', r) ∧
          (∃ d, t'.trace = t.trace ++ d) ∧
          (r = Res.norm → t'.locals = s'.locals ∧ t'.dumps = t.dumps) ∧
          (∀ v, r = Res.retv v →
            t'.locals = setVar s'.locals RETVAL_NAME v ∧
              t'.dumps = t.dumps + 1) := by
  refine ⟨(cleanRunEffects f).2.1 body s s' r hc h, fun t ht => ?_⟩
  obtain ⟨t', hR, hpost⟩ := (simAll f).2.1 body s s' r t hc h ht
  exact ⟨t', hR, hpost.1, hpost.2.1, hpost.2.2⟩

/-- Witness for C4 at `x = 3; return x` from the empty state: the original
run returns 3 without touching the record store; the instrumented run
returns the same 3, with the temporary bound and one flush. -/
theorem c4_witness :
    ((St.mk [("x", 3)] [] 0).trace = initSt.trace ∧
        (St.mk [("x", 3)] [] 0).dumps = initSt.dumps) ∧
      ∃ t', ExecStmtsR
          (fillItems [Stmt.assign 3 "x" (Expr.const 3),
            Stmt.ret 4 (Expr.var "x")]) initSt (t', Res.retv 3) ∧
        (∃ d, t'.trace = initSt.trace ++ d) ∧
        (Res.retv 3 = Res.norm →
          t'.locals = (St.mk [("x", 3)] [] 0).locals ∧
            t'.dumps = initSt.dumps) ∧
        (∀ v, Res.retv 3 = Res.retv v →
          t'.locals = setVar (St.mk [("x", 3)] [] 0).locals RETVAL_NAME v ∧
            t'.dumps = initSt.dumps + 1) := by
  obtain ⟨h1, h2⟩ := c4_instrumented_refines_original
    [Stmt.assign 3 "x" (Expr.const 3), Stmt.ret 4 (Expr.var "x")] 10
    initSt (St.mk [("x", 3)] [] 0) (Res.retv 3) rfl rfl
  exact ⟨h1, h2 initSt rfl⟩

end PyTrace
